import Mathlib

/-!
Verification of the DataStore sync-engine core: the Merger
(`packages/datastore/src/sync/merger.ts`), the reachability-based
connectivity monitor (`ReachabilityNavigator.networkMonitor`), and the
spec-level contracts of the Outbox coalescing table and the predicate
compiler's capability-limit fallback.

The embedding is shallow: storage is an explicit record table plus a log of
every write performed through the storage contract; promises become plain
functions; JavaScript `undefined`-tolerant version comparison is modelled
explicitly.
-/

namespace AmplifySync

/-- Operation type reported by the storage layer (`OpType` in `types.ts`). -/
inductive OpType
  | insert
  | update
  | delete
deriving DecidableEq, Repr

/-- Operation type of a pending local mutation (CREATE / UPDATE / DELETE). -/
inductive MOp
  | create
  | update
  | delete
deriving DecidableEq, Repr

/-- A persisted model instance as the Merger sees it
(`ModelInstanceMetadata`): the primary-key values composed into one
identifier string, `_version`, `_deleted`, and an abstract payload standing
for the remaining model fields. -/
structure StoredRecord where
  identifier : String
  version : Option Int
  deleted : Bool
  payload : Nat
deriving DecidableEq, Repr

/-- A pending or in-flight local write (`MutationEvent`), reduced to the
parts the claims mention: identifier, operation type, and a payload standing
for the data snapshot. -/
structure MutationEvent where
  identifier : String
  op : MOp
  payload : Nat
deriving DecidableEq, Repr

/-- The shape of one write against the storage contract. -/
inductive WriteKind
  | save (r : StoredRecord)
  | del (r : StoredRecord)
  | batch (rs : List StoredRecord)
deriving DecidableEq, Repr

/-- A write recorded against the storage layer together with the origin
marker it was given (`ownSymbol` is modelled as a `Nat`; `none` is a write
without a marker, i.e. a user-originated write). -/
structure WriteOp where
  kind : WriteKind
  origin : Option Nat
deriving DecidableEq, Repr

/-- Local storage: the record table plus a log of every write performed
through the storage contract (`save` / `delete` / `batchSave`). -/
structure StorageState where
  records : List StoredRecord
  writeLog : List WriteOp
deriving DecidableEq, Repr

/-- Storage `query` by primary-key predicate: the first record whose
identifier matches (the merger destructures only the first result). -/
def query (s : StorageState) (id : String) : Option StoredRecord :=
  s.records.find? (fun r => r.identifier = id)

/-- Upsert into the record table by identifier: an existing record with the
same identifier is replaced in place, otherwise the record is appended. -/
def upsertList (recs : List StoredRecord) (r : StoredRecord) : List StoredRecord :=
  if recs.any (fun x => x.identifier = r.identifier) then
    recs.map (fun x => if x.identifier = r.identifier then r else x)
  else recs ++ [r]

/-- Storage `save`: upsert by identifier; reports `INSERT` when the record
was absent and `UPDATE` when it replaced an existing record. -/
def save (s : StorageState) (r : StoredRecord) (origin : Option Nat) :
    StorageState × OpType :=
  (⟨upsertList s.records r, s.writeLog ++ [⟨WriteKind.save r, origin⟩]⟩,
    if (query s r.identifier).isSome then OpType.update else OpType.insert)

/-- Storage `delete` of the record with the given record's identifier. -/
def deleteRec (s : StorageState) (r : StoredRecord) (origin : Option Nat) :
    StorageState :=
  ⟨s.records.filter (fun x => x.identifier ≠ r.identifier),
    s.writeLog ++ [⟨WriteKind.del r, origin⟩]⟩

/-- Storage `batchSave`: upsert every page record in order, recorded as a
single batched write in the log; reports per record whether it was an insert
or an update relative to the state before the batch. -/
def batchSave (s : StorageState) (page : List StoredRecord) (origin : Option Nat) :
    StorageState × List (StoredRecord × OpType) :=
  (⟨page.foldl upsertList s.records, s.writeLog ++ [⟨WriteKind.batch page, origin⟩]⟩,
    page.map (fun r =>
      (r, if (query s r.identifier).isSome then OpType.update else OpType.insert)))

/-- Modelled from the spec: `outbox.getForModel` (the Outbox implementation
is not among the provided sources) returns the pending mutation events whose
identifier matches the given record's identifier (spec section 4.1). -/
def getForModel (outbox : List MutationEvent) (id : String) : List MutationEvent :=
  outbox.filter (fun e => e.identifier = id)

/-- JavaScript `<` on possibly-`undefined` version numbers: any comparison
involving `undefined` evaluates to `false`. -/
def jsLtVersion : Option Int → Option Int → Bool
  | some a, some b => decide (a < b)
  | _, _ => false

/-- `ModelMerger.merge` (merger.ts): fetch the pending outbox mutations for
the record (fetched but unused by the current function body — the guard on
them is commented out in the source), look up the local record by primary
key; a missing local record is a no-op; otherwise the inbound record is
applied exactly when the local `_version` is `undefined` or `<` the inbound
`_version`: as a storage `delete` returning `DELETE` when the inbound record
is a tombstone, as a storage `save` returning the save's reported op
otherwise, each write tagged with `ownSymbol`. -/
def merge (outbox : List MutationEvent) (ownSymbol : Nat) (s : StorageState)
    (model : StoredRecord) : StorageState × Option OpType :=
  let _mutationsForModel := getForModel outbox model.identifier
  let isDelete := model.deleted
  match query s model.identifier with
  | none => (s, none)
  | some fromDB =>
      if fromDB.version.isNone || jsLtVersion fromDB.version model.version then
        if isDelete then
          (deleteRec s model (some ownSymbol), some OpType.delete)
        else
          let saved := save s model (some ownSymbol)
          (saved.1, some saved.2)
      else (s, none)

/-- One step of the JavaScript `Map.set` used by `mergePage`: an existing key
keeps its position in insertion order and gets the new value; a new key is
appended at the end. -/
def mapSet (m : List (String × StoredRecord)) (k : String) (v : StoredRecord) :
    List (String × StoredRecord) :=
  if m.any (fun p => p.1 = k) then
    m.map (fun p => if p.1 = k then (k, v) else p)
  else m ++ [(k, v)]

/-- The `itemsMap` built by `ModelMerger.mergePage`: items keyed by their
identifier (`getIdentifierValue`) in a JavaScript `Map`, so a later item with
an already-seen identifier overwrites the stored value in place. -/
def buildItemsMap (items : List StoredRecord) : List (String × StoredRecord) :=
  items.foldl (fun m item => mapSet m item.identifier item) []

/-- The deduplicated page `[...itemsMap.values()]` of `mergePage`. -/
def dedupPage (items : List StoredRecord) : List StoredRecord :=
  (buildItemsMap items).map Prod.snd

/-- `ModelMerger.mergePage` (merger.ts): deduplicate the page by identifier
through a `Map`, then hand the remaining values to `storage.batchSave`,
tagged with `ownSymbol`. -/
def mergePage (ownSymbol : Nat) (s : StorageState) (items : List StoredRecord) :
    StorageState × List (StoredRecord × OpType) :=
  batchSave s (dedupPage items) (some ownSymbol)

/-- The boolean version gate of `merge` holds exactly when the local version
is `undefined` or both versions are defined and the local one is strictly
smaller. -/
theorem applyCond_iff (l r : Option Int) :
    (l.isNone || jsLtVersion l r) = true ↔
      (l = none ∨ ∃ lv rv, l = some lv ∧ r = some rv ∧ lv < rv) := by
  cases l <;> cases r <;> simp [jsLtVersion]

/-- C1: `merge` applies an inbound record exactly when a local record with
the same identifier exists whose version is undefined or strictly below the
inbound version; a tombstone is applied as a local delete returning `DELETE`,
any other record through `save` returning the save's reported op; a stale
inbound record (local version not undefined and not strictly below) and a
missing local record both leave storage untouched, and in the latter case no
storage write is performed at all. -/
theorem merge_applies_iff_local_version_older (outbox : List MutationEvent)
    (own : Nat) (s : StorageState) (model : StoredRecord) :
    (query s model.identifier = none → merge outbox own s model = (s, none)) ∧
    (∀ l, query s model.identifier = some l →
      ((l.version = none ∨
          ∃ lv rv, l.version = some lv ∧ model.version = some rv ∧ lv < rv) →
        (model.deleted = true →
          merge outbox own s model =
            (deleteRec s model (some own), some OpType.delete)) ∧
        (model.deleted = false →
          merge outbox own s model =
            ((save s model (some own)).1, some (save s model (some own)).2))) ∧
      (¬(l.version = none ∨
          ∃ lv rv, l.version = some lv ∧ model.version = some rv ∧ lv < rv) →
        merge outbox own s model = (s, none))) := by
  refine ⟨fun h => by simp [merge, h], fun l hl => ⟨fun hcond => ?_, fun hcond => ?_⟩⟩
  · have hb : (l.version.isNone || jsLtVersion l.version model.version) = true :=
      (applyCond_iff _ _).mpr hcond
    exact ⟨fun hd => by simp [merge, hl, hb, hd],
      fun hd => by simp [merge, hl, hb, hd]⟩
  · have hb : (l.version.isNone || jsLtVersion l.version model.version) = false := by
      cases hB : (l.version.isNone || jsLtVersion l.version model.version) with
      | false => rfl
      | true => exact absurd ((applyCond_iff _ _).mp hB) hcond
    simp [merge, hl, hb]

/-- Concrete instantiation of the `merge` version gate: local version 1,
inbound version 2, not a tombstone — the inbound record is saved. -/
theorem merge_applies_iff_local_version_older_witness :
    merge [] 7 ⟨[⟨"a", some 1, false, 0⟩], []⟩ ⟨"a", some 2, false, 5⟩ =
      ((save ⟨[⟨"a", some 1, false, 0⟩], []⟩ ⟨"a", some 2, false, 5⟩ (some 7)).1,
        some (save ⟨[⟨"a", some 1, false, 0⟩], []⟩ ⟨"a", some 2, false, 5⟩ (some 7)).2) :=
  (((merge_applies_iff_local_version_older [] 7 ⟨[⟨"a", some 1, false, 0⟩], []⟩
        ⟨"a", some 2, false, 5⟩).2 ⟨"a", some 1, false, 0⟩ (by decide)).1
      (Or.inr ⟨1, 2, rfl, rfl, by decide⟩)).2 rfl

/-- C2 counterexample: with an outstanding outbox mutation pending for
identifier `"a"`, an inbound record for `"a"` with a newer version is still
applied — local storage changes, so inbound records are not suppressed for
identifiers with pending unacknowledged mutations. -/
theorem merge_pending_mutation_not_suppressed :
    getForModel [⟨"a", MOp.update, 9⟩] "a" ≠ [] ∧
    (merge [⟨"a", MOp.update, 9⟩] 7 ⟨[⟨"a", some 1, false, 0⟩], []⟩
        ⟨"a", some 2, false, 5⟩).1.records ≠ [⟨"a", some 1, false, 0⟩] := by
  decide

/-- C2 amended: `merge` reads the pending outbox mutations for the record's
identifier but never uses them — its result is identical for every outbox
content, so inbound records are applied subject only to the version gate even
when an unacknowledged local mutation for the same identifier is pending. -/
theorem merge_result_independent_of_outbox (outbox1 outbox2 : List MutationEvent)
    (own : Nat) (s : StorageState) (model : StoredRecord) :
    merge outbox1 own s model = merge outbox2 own s model := rfl

/-- The value a JavaScript `Map` holds for a key: the second component of the
first (and, for the maps built here, only) entry with that key. -/
def mlookup (m : List (String × StoredRecord)) (k : String) : Option StoredRecord :=
  (m.find? (fun p => p.1 = k)).map Prod.snd

/-- The last record with a given identifier in iteration order, when any. -/
def lastOcc (items : List StoredRecord) (k : String) : Option StoredRecord :=
  (items.filter (fun r => r.identifier = k)).getLast?

/-- Specification-side characterization: the identifiers of a batch in
first-occurrence order, each kept once. -/
def firstOccurrences : List String → List String
  | [] => []
  | k :: ks => k :: (firstOccurrences ks).filter (fun x => x ≠ k)

theorem getLast?_cons_or {α : Type} (a : α) (l : List α) :
    (a :: l).getLast? = l.getLast?.or (some a) := by
  induction l generalizing a with
  | nil => rfl
  | cons b t ih => rw [List.getLast?_cons_cons, ih b, Option.or_assoc]; rfl

theorem find?_map_of_pred_iff {α : Type} (f : α → α) (p : α → Bool)
    (hp : ∀ a, p (f a) = p a) (l : List α) :
    (l.map f).find? p = (l.find? p).map f := by
  induction l with
  | nil => rfl
  | cons a t ih => cases hpa : p a <;> simp [List.find?_cons, hp, hpa, ih]

theorem find?_append_none {α : Type} {p : α → Bool} {l₁ : List α} (l₂ : List α)
    (h : l₁.find? p = none) : (l₁ ++ l₂).find? p = l₂.find? p := by
  induction l₁ with
  | nil => rfl
  | cons a t ih =>
      cases hpa : p a
      · simp only [List.cons_append, List.find?_cons, hpa]
        exact ih (by simpa [List.find?_cons, hpa] using h)
      · simp [List.find?_cons, hpa] at h

theorem find?_append_some {α : Type} {p : α → Bool} {l₁ : List α} {a : α} (l₂ : List α)
    (h : l₁.find? p = some a) : (l₁ ++ l₂).find? p = some a := by
  induction l₁ with
  | nil => simp [List.find?] at h
  | cons b t ih =>
      cases hpb : p b
      · simp only [List.cons_append, List.find?_cons, hpb]
        exact ih (by simpa [List.find?_cons, hpb] using h)
      · simp only [List.cons_append, List.find?_cons, hpb] at h ⊢
        exact h

theorem mapSet_of_any (m : List (String × StoredRecord)) (k : String)
    (v : StoredRecord) (hg : m.any (fun p => p.1 = k) = true) :
    mapSet m k v = m.map (fun p => if p.1 = k then (k, v) else p) := by
  simp [mapSet, hg]

theorem mapSet_of_not_any (m : List (String × StoredRecord)) (k : String)
    (v : StoredRecord) (hg : m.any (fun p => p.1 = k) = false) :
    mapSet m k v = m ++ [(k, v)] := by
  simp [mapSet, hg]

theorem mapSet_mlookup (m : List (String × StoredRecord)) (k' : String)
    (v : StoredRecord) (k : String) :
    mlookup (mapSet m k' v) k = if k = k' then some v else mlookup m k := by
  have hpred : ∀ a : String × StoredRecord,
      (decide ((if a.1 = k' then (k', v) else a).1 = k)) = decide (a.1 = k) := by
    intro a
    by_cases h : a.1 = k' <;> simp [h]
  by_cases hk : k = k'
  · subst hk
    rw [if_pos rfl]
    cases hg : m.any (fun p => p.1 = k) with
    | true =>
        rw [mapSet_of_any m k v hg]
        unfold mlookup
        rw [find?_map_of_pred_iff (fun p => if p.1 = k then (k, v) else p)
          (fun p => decide (p.1 = k)) hpred m]
        obtain ⟨q, hq, hqk⟩ := List.any_eq_true.mp hg
        obtain ⟨r, hr⟩ := Option.isSome_iff_exists.mp
          (show (m.find? (fun p => decide (p.1 = k))).isSome from
            List.find?_isSome.mpr ⟨q, hq, hqk⟩)
        have hrk : r.1 = k := by simpa using List.find?_some hr
        simp [hr, hrk]
    | false =>
        rw [mapSet_of_not_any m k v hg]
        unfold mlookup
        have hnone : m.find? (fun p => decide (p.1 = k)) = none :=
          List.find?_eq_none.mpr (by simpa using List.any_eq_false.mp hg)
        rw [find?_append_none _ hnone]
        simp
  · rw [if_neg hk]
    cases hg : m.any (fun p => p.1 = k') with
    | true =>
        rw [mapSet_of_any m k' v hg]
        unfold mlookup
        rw [find?_map_of_pred_iff (fun p => if p.1 = k' then (k', v) else p)
          (fun p => decide (p.1 = k)) hpred m]
        cases hf : m.find? (fun p => decide (p.1 = k)) with
        | none => simp [hf]
        | some q =>
            have hqk : q.1 = k := by simpa using List.find?_some hf
            have hq' : ¬(q.1 = k') := fun h => hk (hqk.symm.trans h)
            simp [hf, hq']
    | false =>
        rw [mapSet_of_not_any m k' v hg]
        unfold mlookup
        have hk' : ¬(k' = k) := fun h => hk h.symm
        cases hf : m.find? (fun p => decide (p.1 = k)) with
        | none =>
            rw [find?_append_none _ hf]
            simp [hk']
        | some q =>
            rw [find?_append_some _ hf]

theorem foldl_mapSet_mlookup (items : List StoredRecord)
    (m : List (String × StoredRecord)) (k : String) :
    mlookup (items.foldl (fun acc item => mapSet acc item.identifier item) m) k =
      (lastOcc items k).or (mlookup m k) := by
  induction items generalizing m with
  | nil => simp [lastOcc]
  | cons it rest ih =>
      rw [List.foldl_cons, ih, mapSet_mlookup]
      by_cases hk : it.identifier = k
      · have hlast : lastOcc (it :: rest) k = (lastOcc rest k).or (some it) := by
          simp [lastOcc, List.filter_cons, hk, getLast?_cons_or]
        rw [hlast, if_pos hk.symm, Option.or_assoc]
        rfl
      · have hlast : lastOcc (it :: rest) k = lastOcc rest k := by
          simp [lastOcc, List.filter_cons, hk]
        rw [hlast, if_neg (fun h => hk h.symm)]

theorem upsertList_of_any (recs : List StoredRecord) (x : StoredRecord)
    (hg : recs.any (fun r => r.identifier = x.identifier) = true) :
    upsertList recs x =
      recs.map (fun r => if r.identifier = x.identifier then x else r) := by
  simp [upsertList, hg]

theorem upsertList_of_not_any (recs : List StoredRecord) (x : StoredRecord)
    (hg : recs.any (fun r => r.identifier = x.identifier) = false) :
    upsertList recs x = recs ++ [x] := by
  simp [upsertList, hg]

theorem upsertList_find?_self (recs : List StoredRecord) (x : StoredRecord) :
    (upsertList recs x).find? (fun r => r.identifier = x.identifier) = some x := by
  cases hg : recs.any (fun r => r.identifier = x.identifier) with
  | true =>
      rw [upsertList_of_any recs x hg]
      rw [find?_map_of_pred_iff (fun r => if r.identifier = x.identifier then x else r)
        (fun r => decide (r.identifier = x.identifier))
        (fun r => by by_cases h : r.identifier = x.identifier <;> simp [h]) recs]
      obtain ⟨q, hq, hqk⟩ := List.any_eq_true.mp hg
      obtain ⟨r, hr⟩ := Option.isSome_iff_exists.mp
        (show (recs.find? (fun r => decide (r.identifier = x.identifier))).isSome from
          List.find?_isSome.mpr ⟨q, hq, hqk⟩)
      have hrk : r.identifier = x.identifier := by simpa using List.find?_some hr
      simp [hr, hrk]
  | false =>
      rw [upsertList_of_not_any recs x hg]
      have hnone : recs.find? (fun r => decide (r.identifier = x.identifier)) = none :=
        List.find?_eq_none.mpr (by simpa using List.any_eq_false.mp hg)
      rw [find?_append_none _ hnone]
      simp

theorem upsertList_find?_other (recs : List StoredRecord) (x : StoredRecord)
    (id : String) (hid : ¬(id = x.identifier)) :
    (upsertList recs x).find? (fun r => r.identifier = id) =
      recs.find? (fun r => r.identifier = id) := by
  cases hg : recs.any (fun r => r.identifier = x.identifier) with
  | true =>
      rw [upsertList_of_any recs x hg]
      rw [find?_map_of_pred_iff (fun r => if r.identifier = x.identifier then x else r)
        (fun r => decide (r.identifier = id)) (fun r => ?_) recs]
      · cases hf : recs.find? (fun r => decide (r.identifier = id)) with
        | none => simp
        | some q =>
            have hqk : q.identifier = id := by simpa using List.find?_some hf
            have hq' : ¬(q.identifier = x.identifier) :=
              fun h => hid (hqk.symm.trans h)
            simp [hq']
      · by_cases h : r.identifier = x.identifier
        · simp [h, fun hh : x.identifier = id => hid hh.symm]
        · simp [h]
  | false =>
      rw [upsertList_of_not_any recs x hg]
      cases hf : recs.find? (fun r => decide (r.identifier = id)) with
      | none =>
          rw [find?_append_none _ hf]
          have hx : ¬(x.identifier = id) := fun h => hid h.symm
          simp [hx]
      | some q =>
          rw [find?_append_some _ hf]

theorem foldl_upsertList_find?_not_mem (page : List StoredRecord)
    (recs : List StoredRecord) (id : String)
    (hid : id ∉ page.map (fun r => r.identifier)) :
    (page.foldl upsertList recs).find? (fun r => r.identifier = id) =
      recs.find? (fun r => r.identifier = id) := by
  induction page generalizing recs with
  | nil => rfl
  | cons h t ih =>
      simp only [List.map_cons, List.mem_cons, not_or] at hid
      rw [List.foldl_cons, ih (upsertList recs h) hid.2,
        upsertList_find?_other recs h id hid.1]

theorem foldl_upsertList_find?_mem (page : List StoredRecord)
    (recs : List StoredRecord)
    (hnd : (page.map (fun r => r.identifier)).Nodup) :
    ∀ r ∈ page, (page.foldl upsertList recs).find?
      (fun x => x.identifier = r.identifier) = some r := by
  induction page generalizing recs with
  | nil => intro r hr; cases hr
  | cons h t ih =>
      intro r hr
      rw [List.map_cons, List.nodup_cons] at hnd
      rcases List.mem_cons.mp hr with heq | hm
      · subst heq
        rw [List.foldl_cons, foldl_upsertList_find?_not_mem t _ r.identifier hnd.1]
        exact upsertList_find?_self recs r
      · rw [List.foldl_cons]
        exact ih (upsertList recs h) hnd.2 r hm

theorem mapSet_keys (m : List (String × StoredRecord)) (k : String) (v : StoredRecord) :
    (mapSet m k v).map Prod.fst =
      if m.any (fun p => p.1 = k) then m.map Prod.fst else m.map Prod.fst ++ [k] := by
  cases hg : m.any (fun p => p.1 = k) with
  | true =>
      rw [mapSet_of_any m k v hg, List.map_map]
      simp only [hg, if_true]
      exact List.map_congr_left (fun p _ => by
        by_cases h : p.1 = k <;> simp [h])
  | false =>
      rw [mapSet_of_not_any m k v hg]
      simp [hg]

theorem firstOccurrences_nodup (l : List String) : (firstOccurrences l).Nodup := by
  induction l with
  | nil => simp [firstOccurrences]
  | cons k ks ih =>
      simp only [firstOccurrences, List.nodup_cons]
      refine ⟨fun hmem => ?_, ih.filter _⟩
      have := (List.mem_filter.mp hmem).2
      simp at this

theorem foldl_mapSet_keys (items : List StoredRecord)
    (m : List (String × StoredRecord)) :
    ((items.foldl (fun acc item => mapSet acc item.identifier item) m).map Prod.fst) =
      m.map Prod.fst ++
        (firstOccurrences (items.map (fun r => r.identifier))).filter
          (fun x => x ∉ m.map Prod.fst) := by
  induction items generalizing m with
  | nil => simp [firstOccurrences]
  | cons it rest ih =>
      rw [List.map_cons, List.foldl_cons, ih]
      cases hg : m.any (fun p => p.1 = it.identifier) with
      | true =>
          have hkeys : (mapSet m it.identifier it).map Prod.fst = m.map Prod.fst := by
            rw [mapSet_keys]
            simp [hg]
          rw [hkeys]
          have hmem : it.identifier ∈ m.map Prod.fst := by
            obtain ⟨q, hq, hqk⟩ := List.any_eq_true.mp hg
            exact List.mem_map.mpr ⟨q, hq, by simpa using hqk⟩
          simp only [firstOccurrences, List.filter_cons]
          rw [if_neg (by simpa using hmem), List.filter_filter]
          congr 1
          refine List.filter_congr (fun x _ => ?_)
          by_cases hx : x = it.identifier
          · subst hx
            simp [hmem]
          · simp [hx]
      | false =>
          have hkeys : (mapSet m it.identifier it).map Prod.fst =
              m.map Prod.fst ++ [it.identifier] := by
            rw [mapSet_keys]
            simp [hg]
          rw [hkeys]
          have hnmem : it.identifier ∉ m.map Prod.fst := by
            intro hmem
            obtain ⟨q, hq, hqk⟩ := List.mem_map.mp hmem
            exact (List.any_eq_false.mp hg q hq) (by simpa using hqk)
          simp only [firstOccurrences, List.filter_cons]
          rw [if_pos (by simpa using hnmem), List.filter_filter, List.append_assoc]
          congr 1
          rw [List.singleton_append]
          congr 1
          refine List.filter_congr (fun x _ => ?_)
          by_cases hx : x = it.identifier
          · subst hx
            simp [hnmem]
          · simp [hx]

theorem buildItemsMap_keys (items : List StoredRecord) :
    (buildItemsMap items).map Prod.fst =
      firstOccurrences (items.map (fun r => r.identifier)) := by
  have h := foldl_mapSet_keys items []
  simpa [buildItemsMap] using h

theorem buildItemsMap_keys_nodup (items : List StoredRecord) :
    ((buildItemsMap items).map Prod.fst).Nodup := by
  rw [buildItemsMap_keys]
  exact firstOccurrences_nodup _

theorem mapSet_snd_identifier (m : List (String × StoredRecord)) (k : String)
    (v : StoredRecord) (hm : ∀ p ∈ m, p.2.identifier = p.1)
    (hv : v.identifier = k) : ∀ p ∈ mapSet m k v, p.2.identifier = p.1 := by
  intro p hp
  cases hg : m.any (fun q => q.1 = k) with
  | true =>
      rw [mapSet_of_any m k v hg] at hp
      obtain ⟨q, hq, rfl⟩ := List.mem_map.mp hp
      by_cases h : q.1 = k
      · simp [h, hv]
      · simp only [if_neg h]
        exact hm q hq
  | false =>
      rw [mapSet_of_not_any m k v hg] at hp
      rcases List.mem_append.mp hp with h | h
      · exact hm p h
      · rw [List.mem_singleton.mp h]
        exact hv

theorem buildItemsMap_snd_identifier (items : List StoredRecord) :
    ∀ p ∈ buildItemsMap items, p.2.identifier = p.1 := by
  have h : ∀ m, (∀ p ∈ m, p.2.identifier = p.1) →
      ∀ p ∈ items.foldl (fun acc item => mapSet acc item.identifier item) m,
        p.2.identifier = p.1 := by
    induction items with
    | nil => intro m hm p hp; exact hm p hp
    | cons it rest ih =>
        intro m hm p hp
        rw [List.foldl_cons] at hp
        exact ih (mapSet m it.identifier it)
          (mapSet_snd_identifier m it.identifier it hm rfl) p hp
  exact h [] (fun p hp => by cases hp)

theorem find?_eq_of_mem_of_nodup_keys (m : List (String × StoredRecord))
    (k : String) (v : StoredRecord) (hnd : (m.map Prod.fst).Nodup)
    (hm : (k, v) ∈ m) : m.find? (fun p => p.1 = k) = some (k, v) := by
  induction m with
  | nil => cases hm
  | cons p rest ih =>
      rw [List.map_cons, List.nodup_cons] at hnd
      rcases List.mem_cons.mp hm with heq | hmem
      · rw [← heq]
        simp [List.find?_cons]
      · by_cases hpk : p.1 = k
        · exact absurd (hpk ▸ List.mem_map.mpr ⟨(k, v), hmem, rfl⟩) hnd.1
        · simp only [List.find?_cons, decide_eq_false hpk]
          exact ih hnd.2 hmem

theorem buildItemsMap_lastOcc (items : List StoredRecord) (k : String)
    (v : StoredRecord) (h : (k, v) ∈ buildItemsMap items) :
    lastOcc items k = some v := by
  have hfind := find?_eq_of_mem_of_nodup_keys _ k v (buildItemsMap_keys_nodup items) h
  have hml : mlookup (buildItemsMap items) k = some v := by simp [mlookup, hfind]
  have hor : (lastOcc items k).or (mlookup [] k) = some v := by
    rw [← foldl_mapSet_mlookup]
    exact hml
  simpa [mlookup] using hor

theorem dedupPage_identifiers (items : List StoredRecord) :
    (dedupPage items).map (fun r => r.identifier) =
      (buildItemsMap items).map Prod.fst := by
  unfold dedupPage
  rw [List.map_map]
  exact List.map_congr_left (fun p hp => buildItemsMap_snd_identifier items p hp)

theorem dedupPage_identifiers_nodup (items : List StoredRecord) :
    ((dedupPage items).map (fun r => r.identifier)).Nodup := by
  rw [dedupPage_identifiers]
  exact buildItemsMap_keys_nodup items

/-- C4: `mergePage` deduplicates the inbound page by identifier keeping the
last occurrence in iteration order, then performs a single batched save of
the deduplicated page; every deduplicated record is stored afterwards
unconditionally — no per-record version comparison against local state is
involved (the saved page and the batched write are functions of the inbound
items alone). -/
theorem mergePage_dedups_and_batch_saves (own : Nat) (s : StorageState)
    (items : List StoredRecord) :
    (mergePage own s items).1.writeLog =
      s.writeLog ++ [⟨WriteKind.batch (dedupPage items), some own⟩] ∧
    (∀ k v, (k, v) ∈ buildItemsMap items → lastOcc items k = some v) ∧
    (∀ r, r ∈ dedupPage items →
      query (mergePage own s items).1 r.identifier = some r) := by
  refine ⟨rfl, fun k v h => buildItemsMap_lastOcc items k v h, fun r hr => ?_⟩
  show ((dedupPage items).foldl upsertList s.records).find?
    (fun x => x.identifier = r.identifier) = some r
  exact foldl_upsertList_find?_mem (dedupPage items) s.records
    (dedupPage_identifiers_nodup items) r hr

/-- Concrete instantiation of the `mergePage` dedup property: the last
occurrence of identifier "a" wins, even though it carries a version no higher
than the first. -/
theorem mergePage_dedups_and_batch_saves_witness :
    lastOcc [⟨"a", some 5, false, 0⟩, ⟨"b", some 1, false, 1⟩,
      ⟨"a", some 3, false, 2⟩] "a" = some ⟨"a", some 3, false, 2⟩ :=
  (mergePage_dedups_and_batch_saves 7 ⟨[], []⟩
      [⟨"a", some 5, false, 0⟩, ⟨"b", some 1, false, 1⟩,
        ⟨"a", some 3, false, 2⟩]).2.1 "a" ⟨"a", some 3, false, 2⟩ (by decide)

/-- C9: the deduplicated page keeps each identifier at the position of its
first occurrence (JavaScript `Map` insertion-order semantics) while carrying
the data of its last occurrence; distinct identifiers therefore keep their
relative first-seen order in the batched save. -/
theorem mergePage_map_insertion_order (items : List StoredRecord) :
    (buildItemsMap items).map Prod.fst =
      firstOccurrences (items.map (fun r => r.identifier)) ∧
    (∀ k v, (k, v) ∈ buildItemsMap items → lastOcc items k = some v) ∧
    dedupPage items = (buildItemsMap items).map Prod.snd :=
  ⟨buildItemsMap_keys items, fun k v h => buildItemsMap_lastOcc items k v h, rfl⟩

/-- Concrete instantiation of the `mergePage` insertion-order property. -/
theorem mergePage_map_insertion_order_witness :
    lastOcc [⟨"a", some 1, false, 0⟩, ⟨"b", some 2, false, 1⟩,
      ⟨"a", some 3, false, 9⟩] "b" = some ⟨"b", some 2, false, 1⟩ :=
  (mergePage_map_insertion_order [⟨"a", some 1, false, 0⟩, ⟨"b", some 2, false, 1⟩,
      ⟨"a", some 3, false, 9⟩]).2.1 "b" ⟨"b", some 2, false, 1⟩ (by decide)

/-- C7: every write the Merger performs to storage — the delete and the save
inside `merge`, and the batched save of `mergePage` — carries the
sync-engine-private origin marker `ownSymbol`: every entry the merger adds to
the write log has origin `some ownSymbol`, which is how the storage layer
recognizes sync-engine writes and does not re-enqueue them into the Outbox. -/
theorem merger_writes_carry_own_symbol (outbox : List MutationEvent) (own : Nat)
    (s t : StorageState) (model : StoredRecord) (items : List StoredRecord) :
    (∀ w, w ∈ (merge outbox own s model).1.writeLog →
      w ∈ s.writeLog ∨ w.origin = some own) ∧
    (∀ w, w ∈ (mergePage own t items).1.writeLog →
      w ∈ t.writeLog ∨ w.origin = some own) := by
  constructor
  · intro w hw
    rcases hq : query s model.identifier with _ | fromDB
    · simp [merge, hq] at hw
      exact Or.inl hw
    · cases hc : (fromDB.version.isNone || jsLtVersion fromDB.version model.version) with
      | false =>
          simp [merge, hq, hc] at hw
          exact Or.inl hw
      | true =>
          cases hd : model.deleted with
          | true =>
              simp [merge, hq, hc, hd, deleteRec] at hw
              rcases hw with h | h
              · exact Or.inl h
              · exact Or.inr (by rw [h])
          | false =>
              simp [merge, hq, hc, hd, save] at hw
              rcases hw with h | h
              · exact Or.inl h
              · exact Or.inr (by rw [h])
  · intro w hw
    simp [mergePage, batchSave] at hw
    rcases hw with h | h
    · exact Or.inl h
    · exact Or.inr (by rw [h])

/-- Concrete instantiation of the origin-marker property for a `merge` save. -/
theorem merger_writes_carry_own_symbol_witness :
    (⟨WriteKind.save ⟨"a", some 2, false, 5⟩, some 7⟩ : WriteOp) ∈
        ([] : List WriteOp) ∨
      (⟨WriteKind.save ⟨"a", some 2, false, 5⟩, some 7⟩ : WriteOp).origin = some 7 :=
  (merger_writes_carry_own_symbol [] 7 ⟨[⟨"a", some 1, false, 0⟩], []⟩ ⟨[], []⟩
      ⟨"a", some 2, false, 5⟩ []).1 ⟨WriteKind.save ⟨"a", some 2, false, 5⟩, some 7⟩
    (by decide)

/-- An `{online}` event delivered to a subscriber of the reachability
monitor. -/
structure NetworkStatus where
  online : Bool
deriving DecidableEq, Repr

/-- Poll-driven emissions of one `networkMonitor` subscription (part_000):
each interval tick probes `netInfo.fetch` and compares the result with the
captured `online` variable; only a change is emitted, and `online` is
updated exactly at emissions. -/
def pollEmissions (online : Bool) : List Bool → List NetworkStatus
  | [] => []
  | p :: ps =>
      if online ≠ p then ⟨p⟩ :: pollEmissions p ps else pollEmissions online ps

/-- One subscription of `networkMonitor` (part_000): the initial
`netInfo.fetch` result is emitted unconditionally, then polling proceeds
with the captured `online` variable set to that result. -/
def runSubscription (initialProbe : Bool) (polls : List Bool) : List NetworkStatus :=
  ⟨initialProbe⟩ :: pollEmissions initialProbe polls

/-- The duck-typed NetInfo argument of `networkMonitor`: when present, it
either carries a `fetch` capability or not. -/
structure NetInfo where
  hasFetch : Bool
deriving DecidableEq, Repr

/-- The message of the configuration error thrown by `networkMonitor`. -/
def reachabilityErrorMessage : String :=
  "NetInfo must be passed to networkMonitor to enable reachability in React Native"

/-- A constructed reachability monitor: its per-subscriber behaviour as a
function of the initial probe result and the poll results. -/
structure MonitorHandle where
  subscribeRun : Bool → List Bool → List NetworkStatus

/-- `ReachabilityNavigator.networkMonitor` (part_000): the guard
`!(netInfo && netInfo.fetch)` throws a configuration error synchronously,
before the observable is constructed; otherwise the returned observable runs
`runSubscription` for each subscriber. -/
def networkMonitor (netInfo : Option NetInfo) : Except String MonitorHandle :=
  match netInfo with
  | none => Except.error reachabilityErrorMessage
  | some ni =>
      if ni.hasFetch then Except.ok ⟨runSubscription⟩
      else Except.error reachabilityErrorMessage

theorem runSubscription_destutter (a : Bool) (l : List Bool) :
    (runSubscription a l).map NetworkStatus.online =
      List.destutter' (fun x y => x ≠ y) a l := by
  unfold runSubscription
  induction l generalizing a with
  | nil => rfl
  | cons p ps ih =>
      by_cases h : a ≠ p
      · rw [List.destutter'_cons_pos _ h]
        simp only [pollEmissions, if_pos h, List.map_cons]
        rw [← ih p]
        simp
      · rw [List.destutter'_cons_neg _ h]
        simp only [pollEmissions, if_neg h]
        exact ih a

/-- C5: for every subscription of the connectivity monitor, the initial
probed state is emitted first, and the emission sequence is exactly the
change-points of the probe sequence (`destutter'` by inequality): a poll
emits precisely when the probed value differs from the value recorded at the
last emission, so repeated probes returning the same value never produce an
emission and adjacent emitted values are always distinct. -/
theorem networkMonitor_emits_changes_only (p : Bool) (polls : List Bool) :
    networkMonitor (some ⟨true⟩) = Except.ok ⟨runSubscription⟩ ∧
    (runSubscription p polls).head? = some ⟨p⟩ ∧
    (runSubscription p polls).map NetworkStatus.online =
      List.destutter' (fun x y => x ≠ y) p polls ∧
    List.Chain' (fun x y => x ≠ y)
      ((runSubscription p polls).map NetworkStatus.online) := by
  refine ⟨rfl, rfl, runSubscription_destutter p polls, ?_⟩
  rw [runSubscription_destutter p polls]
  exact List.destutter'_is_chain' polls (fun x y => x ≠ y) p

/-- C8: calling `networkMonitor` with no NetInfo argument, or with one
lacking a `fetch` capability, raises the configuration error synchronously
as the call's immediate result — no monitor handle (and hence no
subscription work) is ever produced; it is neither a silent no-op nor a
deferred asynchronous failure. -/
theorem networkMonitor_missing_probe_errors (netInfo : Option NetInfo) :
    (netInfo = none ∨ ∃ ni, netInfo = some ni ∧ ni.hasFetch = false) →
      networkMonitor netInfo = Except.error reachabilityErrorMessage ∧
      ∀ h : MonitorHandle, networkMonitor netInfo ≠ Except.ok h := by
  intro hcond
  rcases hcond with rfl | ⟨ni, rfl, hf⟩
  · exact ⟨rfl, fun h => by simp [networkMonitor]⟩
  · constructor
    · simp [networkMonitor, hf]
    · intro h
      simp [networkMonitor, hf]

/-- Concrete instantiation: a missing NetInfo argument yields the
synchronous configuration error. -/
theorem networkMonitor_missing_probe_errors_witness :
    networkMonitor none = Except.error reachabilityErrorMessage :=
  (networkMonitor_missing_probe_errors none (Or.inl rfl)).1

/-- An event a live subscription can receive: a poll tick with a probe
result, or a status forced by the test-only `_observerOverride`. -/
inductive MonitorEvent
  | poll (probe : Bool)
  | forced (status : NetworkStatus)
deriving DecidableEq, Repr

/-- Handling of one event by a subscription: a poll compares and updates the
captured `online` variable, emitting only on change; a forced status is
emitted unconditionally (`_observerOverride` calls `observer.next` directly)
and leaves the captured `online` variable untouched. -/
def eventStep (online : Bool) : MonitorEvent → Bool × List NetworkStatus
  | MonitorEvent.poll p => if online ≠ p then (p, [⟨p⟩]) else (online, [])
  | MonitorEvent.forced st => (online, [st])

/-- All emissions of a subscription over a sequence of events, starting from
a given captured `online` value. -/
def runEvents (online : Bool) : List MonitorEvent → List NetworkStatus
  | [] => []
  | e :: es => (eventStep online e).2 ++ runEvents (eventStep online e).1 es

/-- A subscriber in the static `_observers` array: its position and whether
it is closed. -/
structure Observer where
  idx : Nat
  closed : Bool
deriving DecidableEq, Repr

/-- The loop of `_observerOverride` (part_000), iterating over the observer
array captured at loop entry: a closed observer is filtered out of the
current static list and skipped; every other observer is notified with the
given status. Returns the final static list and the notifications in
order. -/
def observerOverrideLoop (status : NetworkStatus) (current : List Observer) :
    List Observer → List Observer × List (Observer × NetworkStatus)
  | [] => (current, [])
  | o :: os =>
      if o.closed then
        observerOverrideLoop status (current.filter (fun x => x ≠ o)) os
      else
        ((observerOverrideLoop status current os).1,
          (o, status) :: (observerOverrideLoop status current os).2)

/-- `_observerOverride` (part_000): run the loop over the static observer
list itself. -/
def observerOverride (status : NetworkStatus) (obs : List Observer) :
    List Observer × List (Observer × NetworkStatus) :=
  observerOverrideLoop status obs obs

theorem observerOverrideLoop_spec (status : NetworkStatus)
    (os current : List Observer) :
    observerOverrideLoop status current os =
      (current.filter (fun x => !(x.closed && decide (x ∈ os))),
        (os.filter (fun o => !o.closed)).map (fun o => (o, status))) := by
  induction os generalizing current with
  | nil => simp [observerOverrideLoop]
  | cons o rest ih =>
      cases hc : o.closed with
      | true =>
          simp only [observerOverrideLoop]
          rw [hc, if_pos rfl, ih, Prod.mk.injEq]
          constructor
          · rw [List.filter_filter]
            refine List.filter_congr (fun x _ => ?_)
            by_cases hx : x = o
            · subst hx
              simp [hc]
            · simp [hx]
          · rw [List.filter_cons]
            simp [hc]
      | false =>
          simp only [observerOverrideLoop]
          rw [hc, if_neg Bool.false_ne_true, ih, Prod.mk.injEq]
          constructor
          · refine List.filter_congr (fun x _ => ?_)
            by_cases hx : x = o
            · subst hx
              simp [hc]
            · simp [hx]
          · rw [List.filter_cons]
            simp [hc]

/-- C10: `_observerOverride` delivers the forced status unconditionally to
every currently non-closed subscriber, pruning the closed ones from the
static list; it does not touch any subscription's captured `online` value,
so after a forced transition the next poll compares against the stale
pre-override value and the stream can emit the same online value twice in a
row (the trace below emits `{online: true}` twice). -/
theorem observerOverride_forced_delivery (status : NetworkStatus)
    (obs : List Observer) :
    observerOverride status obs =
      (obs.filter (fun o => !o.closed),
        (obs.filter (fun o => !o.closed)).map (fun o => (o, status))) ∧
    (∀ online : Bool,
      eventStep online (MonitorEvent.forced status) = (online, [status])) ∧
    runEvents false [MonitorEvent.forced ⟨true⟩, MonitorEvent.poll true] =
      [⟨true⟩, ⟨true⟩] := by
  refine ⟨?_, fun online => rfl, by decide⟩
  rw [observerOverride, observerOverrideLoop_spec]
  congr 1
  refine List.filter_congr (fun x hx => ?_)
  simp [hx]

/-- Modelled from the spec: the section 4.1 coalescing table applied when a
new local write arrives for an identifier that already has a pending event
(existing op, incoming op, result; `none` means the entry is removed
entirely — a CREATE followed by DELETE never leaves the device). DELETE is
terminal: later operations on a pending delete are ignored. The table does
not list an incoming CREATE over a pending CREATE or UPDATE; those keep the
pending operation type. -/
def coalesce : MOp → MOp → Option MOp
  | MOp.create, MOp.update => some MOp.create
  | MOp.create, MOp.delete => none
  | MOp.update, MOp.update => some MOp.update
  | MOp.update, MOp.delete => some MOp.delete
  | MOp.delete, _ => some MOp.delete
  | MOp.create, MOp.create => some MOp.create
  | MOp.update, MOp.create => some MOp.update

/-- Modelled from the spec: Outbox `enqueue` (section 4.1; the Outbox
implementation is not among the provided sources). A write for an identifier
with no pending event is appended; otherwise the pending entry is coalesced
in place per the table, or removed when the table says the pair cancels. -/
def enqueue (q : List MutationEvent) (e : MutationEvent) : List MutationEvent :=
  match q.find? (fun p => p.identifier = e.identifier) with
  | none => q ++ [e]
  | some pending =>
      match coalesce pending.op e.op with
      | none => q.filter (fun p => p.identifier ≠ e.identifier)
      | some op2 =>
          q.map (fun p =>
            if p.identifier = e.identifier then ⟨p.identifier, op2, e.payload⟩ else p)

/-- Modelled from the spec: the queue contents after enqueueing a sequence
of local writes while offline, starting from an empty outbox. -/
def buildQueue (ws : List MutationEvent) : List MutationEvent :=
  ws.foldl enqueue []

/-- Modelled from the spec: draining the outbox once connectivity resumes
sends each pending event FIFO, one at a time; the mutations sent for an
identifier are therefore the queue entries with that identifier, in
order. -/
def sentMutations (q : List MutationEvent) (id : String) : List MOp :=
  (q.filter (fun e => e.identifier = id)).map (fun e => e.op)

/-- Modelled from the spec: the net effect of the coalescing table over a
sequence of operations on one identifier (`none`: nothing remains to be
sent). -/
def netEffect : Option MOp → List MOp → Option MOp
  | acc, [] => acc
  | none, op :: rest => netEffect (some op) rest
  | some ex, op :: rest => netEffect (coalesce ex op) rest

theorem enqueue_of_find?_none (q : List MutationEvent) (e : MutationEvent)
    (hf : q.find? (fun p => p.identifier = e.identifier) = none) :
    enqueue q e = q ++ [e] := by
  unfold enqueue
  rw [hf]

theorem enqueue_of_found (q : List MutationEvent) (e : MutationEvent)
    (pending : MutationEvent)
    (hf : q.find? (fun p => p.identifier = e.identifier) = some pending) :
    enqueue q e =
      match coalesce pending.op e.op with
      | none => q.filter (fun p => p.identifier ≠ e.identifier)
      | some op2 =>
          q.map (fun p =>
            if p.identifier = e.identifier then ⟨p.identifier, op2, e.payload⟩ else p) := by
  unfold enqueue
  rw [hf]

theorem enqueue_of_coalesce_none (q : List MutationEvent) (e : MutationEvent)
    (pending : MutationEvent)
    (hf : q.find? (fun p => p.identifier = e.identifier) = some pending)
    (hc : coalesce pending.op e.op = none) :
    enqueue q e = q.filter (fun p => p.identifier ≠ e.identifier) := by
  rw [enqueue_of_found q e pending hf, hc]

theorem enqueue_of_coalesce_some (q : List MutationEvent) (e : MutationEvent)
    (pending : MutationEvent) (op2 : MOp)
    (hf : q.find? (fun p => p.identifier = e.identifier) = some pending)
    (hc : coalesce pending.op e.op = some op2) :
    enqueue q e = q.map (fun p =>
      if p.identifier = e.identifier then ⟨p.identifier, op2, e.payload⟩ else p) := by
  rw [enqueue_of_found q e pending hf, hc]

theorem find?_eq_head?_filter {α : Type} (p : α → Bool) (l : List α) :
    l.find? p = (l.filter p).head? := by
  induction l with
  | nil => rfl
  | cons a t ih =>
      cases hpa : p a
      · rw [List.find?_cons_of_neg _ (by simp [hpa]),
          List.filter_cons_of_neg (by simp [hpa])]
        exact ih
      · rw [List.find?_cons_of_pos _ hpa, List.filter_cons_of_pos hpa,
          List.head?_cons]

theorem find?_filter_eq_find? {α : Type} (p : α → Bool) (l : List α) :
    (l.filter p).find? p = l.find? p := by
  conv_rhs => rw [find?_eq_head?_filter p l]
  cases hf : l.filter p with
  | nil => rfl
  | cons a t =>
      have ha : p a = true := (List.mem_filter.mp (hf ▸ List.mem_cons_self a t)).2
      rw [List.find?_cons_of_pos _ ha, List.head?_cons]

theorem filter_map_comm {α β : Type} (f : α → β) (p : β → Bool) (l : List α) :
    (l.map f).filter p = (l.filter (fun a => p (f a))).map f := by
  induction l with
  | nil => rfl
  | cons a t ih => cases hpa : p (f a) <;> simp [List.filter_cons, hpa, ih]

theorem enqueue_filter_commute (q : List MutationEvent) (e : MutationEvent)
    (id : String) :
    (enqueue q e).filter (fun p => p.identifier = id) =
      if e.identifier = id then
        enqueue (q.filter (fun p => p.identifier = id)) e
      else q.filter (fun p => p.identifier = id) := by
  by_cases hid : e.identifier = id
  · subst hid
    rw [if_pos rfl]
    cases hf : q.find? (fun p => p.identifier = e.identifier) with
    | none =>
        have hfil : q.filter (fun p => p.identifier = e.identifier) = [] :=
          List.filter_eq_nil_iff.mpr (by simpa using List.find?_eq_none.mp hf)
        rw [enqueue_of_find?_none q e hf, hfil,
          enqueue_of_find?_none [] e rfl, List.filter_append, hfil]
        simp [List.filter_cons]
    | some pending =>
        have hffil : (q.filter (fun p => p.identifier = e.identifier)).find?
            (fun p => p.identifier = e.identifier) = some pending := by
          rw [find?_filter_eq_find?, hf]
        cases hc : coalesce pending.op e.op with
        | none =>
            rw [enqueue_of_coalesce_none q e pending hf hc,
              enqueue_of_coalesce_none _ e pending hffil hc,
              List.filter_filter, List.filter_filter]
            exact List.filter_congr (fun x _ => Bool.and_comm _ _)
        | some op2 =>
            rw [enqueue_of_coalesce_some q e pending op2 hf hc,
              enqueue_of_coalesce_some _ e pending op2 hffil hc,
              filter_map_comm]
            congr 1
            refine List.filter_congr (fun x _ => ?_)
            by_cases h : x.identifier = e.identifier <;> simp [h]
  · rw [if_neg hid]
    cases hf : q.find? (fun p => p.identifier = e.identifier) with
    | none =>
        rw [enqueue_of_find?_none q e hf, List.filter_append]
        have : ([e].filter (fun p => p.identifier = id)) = [] := by
          simp [List.filter_cons, hid]
        rw [this, List.append_nil]
    | some pending =>
        cases hc : coalesce pending.op e.op with
        | none =>
            rw [enqueue_of_coalesce_none q e pending hf hc, List.filter_filter]
            refine List.filter_congr (fun x _ => ?_)
            by_cases h : x.identifier = id
            · have hne : ¬(x.identifier = e.identifier) :=
                fun hh => hid (hh.symm.trans h)
              have hne2 : ¬(id = e.identifier) := fun hh => hid hh.symm
              simp [h, hne, hne2]
            · simp [h]
        | some op2 =>
            rw [enqueue_of_coalesce_some q e pending op2 hf hc, filter_map_comm]
            have hpred : (q.filter (fun a =>
                decide ((if a.identifier = e.identifier then
                  (⟨a.identifier, op2, e.payload⟩ : MutationEvent) else a).identifier = id))) =
                q.filter (fun p => p.identifier = id) := by
              refine List.filter_congr (fun x _ => ?_)
              by_cases h : x.identifier = e.identifier <;> simp [h]
            rw [hpred]
            have hid2 : ∀ x ∈ q.filter (fun p => p.identifier = id),
                (fun p => if p.identifier = e.identifier then
                  (⟨p.identifier, op2, e.payload⟩ : MutationEvent) else p) x =
                  (fun p => p) x := by
              intro x hx
              have hxid : x.identifier = id := by
                simpa using (List.mem_filter.mp hx).2
              have hne : ¬(x.identifier = e.identifier) :=
                fun hh => hid (hh.symm.trans hxid)
              simp [hne]
            rw [List.map_congr_left hid2]
            simp

theorem foldl_enqueue_filter (ws : List MutationEvent) (id : String)
    (q : List MutationEvent) :
    (ws.foldl enqueue q).filter (fun p => p.identifier = id) =
      (ws.filter (fun e => e.identifier = id)).foldl enqueue
        (q.filter (fun p => p.identifier = id)) := by
  induction ws generalizing q with
  | nil => rfl
  | cons w rest ih =>
      rw [List.foldl_cons, ih, List.filter_cons]
      by_cases hw : w.identifier = id
      · rw [enqueue_filter_commute, if_pos hw]
        simp [hw]
      · rw [enqueue_filter_commute, if_neg hw]
        simp [hw]

/-- The queue restricted to one identifier, as an optional single entry. -/
def accList (id : String) : Option (MOp × Nat) → List MutationEvent
  | none => []
  | some (op, pl) => [⟨id, op, pl⟩]

theorem foldl_enqueue_single (id : String) (es : List MutationEvent)
    (hes : ∀ x ∈ es, x.identifier = id) (acc : Option (MOp × Nat)) :
    ∃ acc2 : Option (MOp × Nat),
      es.foldl enqueue (accList id acc) = accList id acc2 ∧
      acc2.map Prod.fst = netEffect (acc.map Prod.fst) (es.map (fun e => e.op)) := by
  induction es generalizing acc with
  | nil =>
      cases acc with
      | none => exact ⟨none, rfl, rfl⟩
      | some pair => exact ⟨some pair, rfl, rfl⟩
  | cons e rest ih =>
      have he : e.identifier = id := hes e (List.mem_cons_self e rest)
      have hrest : ∀ x ∈ rest, x.identifier = id :=
        fun x hx => hes x (List.mem_cons_of_mem e hx)
      cases acc with
      | none =>
          have hstep : enqueue (accList id none) e =
              accList id (some (e.op, e.payload)) := by
            show enqueue [] e = [⟨id, e.op, e.payload⟩]
            rw [enqueue_of_find?_none [] e rfl, ← he]
            rfl
          obtain ⟨acc2, h1, h2⟩ := ih hrest (some (e.op, e.payload))
          exact ⟨acc2, by rw [List.foldl_cons, hstep, h1], by
            rw [List.map_cons]
            exact h2⟩
      | some pair =>
          obtain ⟨op, pl⟩ := pair
          have hfind : (accList id (some (op, pl))).find?
              (fun p => p.identifier = e.identifier) = some ⟨id, op, pl⟩ := by
            simp [accList, List.find?_cons, he]
          cases hc : coalesce op e.op with
          | none =>
              have hstep : enqueue (accList id (some (op, pl))) e = accList id none := by
                rw [enqueue_of_coalesce_none _ e ⟨id, op, pl⟩ hfind hc]
                simp [accList, List.filter_cons, he]
              obtain ⟨acc2, h1, h2⟩ := ih hrest none
              refine ⟨acc2, by rw [List.foldl_cons, hstep, h1], ?_⟩
              rw [List.map_cons]
              show acc2.map Prod.fst =
                netEffect (coalesce op e.op) (rest.map (fun e => e.op))
              rw [hc]
              exact h2
          | some op2 =>
              have hstep : enqueue (accList id (some (op, pl))) e =
                  accList id (some (op2, e.payload)) := by
                rw [enqueue_of_coalesce_some _ e ⟨id, op, pl⟩ op2 hfind hc]
                simp [accList, he]
              obtain ⟨acc2, h1, h2⟩ := ih hrest (some (op2, e.payload))
              refine ⟨acc2, by rw [List.foldl_cons, hstep, h1], ?_⟩
              rw [List.map_cons]
              show acc2.map Prod.fst =
                netEffect (coalesce op e.op) (rest.map (fun e => e.op))
              rw [hc]
              exact h2

/-- C3 (the Outbox sources are not under src/; modelled from the spec):
after any sequence of offline local writes, the outbox holds at most one
pending event per identifier; once connectivity resumes the drain sends at
most one mutation per identifier, whose operation type equals the net effect
of the coalescing table over that identifier's writes; in particular a
CREATE, UPDATE, DELETE sequence for one identifier results in nothing ever
being sent. -/
theorem outbox_single_pending_net_effect (ws : List MutationEvent) (id : String)
    (i : String) (p1 p2 p3 : Nat) :
    ((buildQueue ws).filter (fun e => e.identifier = id)).length ≤ 1 ∧
    sentMutations (buildQueue ws) id =
      (netEffect none ((ws.filter (fun e => e.identifier = id)).map
        (fun e => e.op))).toList ∧
    sentMutations
      (buildQueue [⟨i, MOp.create, p1⟩, ⟨i, MOp.update, p2⟩, ⟨i, MOp.delete, p3⟩])
      i = [] := by
  have key : ∀ (ws' : List MutationEvent) (id' : String),
      ∃ acc2 : Option (MOp × Nat),
        (buildQueue ws').filter (fun e => e.identifier = id') = accList id' acc2 ∧
        acc2.map Prod.fst =
          netEffect none ((ws'.filter (fun e => e.identifier = id')).map
            (fun e => e.op)) := by
    intro ws' id'
    have hfold := foldl_enqueue_filter ws' id' []
    have hes : ∀ x ∈ ws'.filter (fun e => e.identifier = id'), x.identifier = id' :=
      fun x hx => by simpa using (List.mem_filter.mp hx).2
    obtain ⟨acc2, h1, h2⟩ := foldl_enqueue_single id'
      (ws'.filter (fun e => e.identifier = id')) hes none
    exact ⟨acc2, by rw [buildQueue, hfold]; exact h1, h2⟩
  obtain ⟨acc2, h1, h2⟩ := key ws id
  refine ⟨?_, ?_, ?_⟩
  · rw [h1]
    cases acc2 with
    | none => simp [accList]
    | some pair => obtain ⟨op, pl⟩ := pair; simp [accList]
  · rw [sentMutations, h1, ← h2]
    cases acc2 with
    | none => rfl
    | some pair => obtain ⟨op, pl⟩ := pair; rfl
  · obtain ⟨acc3, g1, g2⟩ :=
      key [⟨i, MOp.create, p1⟩, ⟨i, MOp.update, p2⟩, ⟨i, MOp.delete, p3⟩] i
    rw [sentMutations, g1]
    have hfil : ([⟨i, MOp.create, p1⟩, ⟨i, MOp.update, p2⟩,
        ⟨i, MOp.delete, p3⟩] : List MutationEvent).filter
          (fun e => e.identifier = i) =
        [⟨i, MOp.create, p1⟩, ⟨i, MOp.update, p2⟩, ⟨i, MOp.delete, p3⟩] := by
      simp [List.filter_cons]
    rw [hfil] at g2
    have : acc3.map Prod.fst = none := by
      rw [g2]
      rfl
    cases acc3 with
    | none => rfl
    | some pair => simp at this

mutual
/-- Modelled from the spec: a FilterNode tree (section 3) — field, operator,
value leaves combined into AND and OR groups and NOT; group children form a
mutual forest so that structural recursion stays primitive. The predicate
compiler's sources are not among the provided files. -/
inductive FilterNode
  | leaf (field : String) (fop : String) (value : String)
  | andGroup (children : FilterForest)
  | orGroup (children : FilterForest)
  | notGroup (child : FilterNode)

/-- Modelled from the spec: the children of a filter group. -/
inductive FilterForest
  | nil
  | cons (head : FilterNode) (tail : FilterForest)
end

mutual
/-- Modelled from the spec: every field name referenced anywhere in the
tree. -/
def nodeFields : FilterNode → List String
  | FilterNode.leaf f _ _ => [f]
  | FilterNode.andGroup cs => forestFields cs
  | FilterNode.orGroup cs => forestFields cs
  | FilterNode.notGroup c => nodeFields c

def forestFields : FilterForest → List String
  | FilterForest.nil => []
  | FilterForest.cons c cs => nodeFields c ++ forestFields cs
end

/-- Modelled from the spec: the number of distinct field names referenced
anywhere in the tree. -/
def distinctFieldCount (f : FilterNode) : Nat :=
  (nodeFields f).dedup.length

/-- The field name of a node when it is a leaf. -/
def leafField : FilterNode → Option String
  | FilterNode.leaf f _ _ => some f
  | _ => none

/-- The field names constrained directly (by leaf children) in one group. -/
def groupLeafFields : FilterForest → List String
  | FilterForest.nil => []
  | FilterForest.cons c cs =>
      match leafField c with
      | some f => f :: groupLeafFields cs
      | none => groupLeafFields cs

mutual
/-- Modelled from the spec: the field names that occur more than once as
direct constraints of a single AND group, anywhere in the tree (the remote
filter language cannot express two constraints on one field within one AND
group). -/
def repeatedAndGroupFields : FilterNode → List String
  | FilterNode.leaf _ _ _ => []
  | FilterNode.andGroup cs =>
      (groupLeafFields cs).filter (fun f => 1 < (groupLeafFields cs).count f) ++
        forestRepeated cs
  | FilterNode.orGroup cs => forestRepeated cs
  | FilterNode.notGroup c => repeatedAndGroupFields c

def forestRepeated : FilterForest → List String
  | FilterForest.nil => []
  | FilterForest.cons c cs => repeatedAndGroupFields c ++ forestRepeated cs
end

mutual
/-- Modelled from the spec: the number of leaf/group combinations implied by
the cartesian expansion of nested OR (sum) and AND (product). -/
def combos : FilterNode → Nat
  | FilterNode.leaf _ _ _ => 1
  | FilterNode.andGroup cs => combosProd cs
  | FilterNode.orGroup cs => combosSum cs
  | FilterNode.notGroup c => combos c

def combosProd : FilterForest → Nat
  | FilterForest.nil => 1
  | FilterForest.cons c cs => combos c * combosProd cs

def combosSum : FilterForest → Nat
  | FilterForest.nil => 0
  | FilterForest.cons c cs => combos c + combosSum cs
end

/-- Modelled from the spec: the diagnostic emitted when a backend filtering
limit is exceeded, carrying what was found versus the configured limit. -/
inductive FilterError
  | repeatedFieldsInAndGroup (fields : List String)
  | fieldLimitExceeded (found : Nat) (limit : Nat)
  | combinationLimitExceeded (found : Nat) (limit : Nat)
deriving DecidableEq, Repr

/-- Modelled from the spec: the feasibility check of a compiled filter
against the backend capability limits (section 4.4): a field repeated inside
one AND group, a distinct-field count over the maximum, or a leaf/group
combination count over the maximum each reject the filter. -/
def checkFilter (f : FilterNode) (maxFields maxCombinations : Nat) :
    Option FilterError :=
  if repeatedAndGroupFields f ≠ [] then
    some (FilterError.repeatedFieldsInAndGroup (repeatedAndGroupFields f).dedup)
  else if maxFields < distinctFieldCount f then
    some (FilterError.fieldLimitExceeded (distinctFieldCount f) maxFields)
  else if maxCombinations < combos f then
    some (FilterError.combinationLimitExceeded (combos f) maxCombinations)
  else none

/-- The server-side filters attached to a model's three subscription
channels, together with the warning and clientside-fallback flag. -/
structure SubscriptionSetup where
  onCreateFilter : Option FilterNode
  onUpdateFilter : Option FilterNode
  onDeleteFilter : Option FilterNode
  warning : Option FilterError
  clientsideFiltering : Bool

/-- Modelled from the spec: attach the compiled filter to the three
subscription channels when it is feasible; otherwise attach no server-side
filter anywhere, log the diagnostic, and fall back to evaluating the
predicate clientside. -/
def buildSubscriptions (f : FilterNode) (maxFields maxCombinations : Nat) :
    SubscriptionSetup :=
  match checkFilter f maxFields maxCombinations with
  | some e => ⟨none, none, none, some e, true⟩
  | none => ⟨some f, some f, some f, none, false⟩

/-- C6 (the predicate compiler sources are not under src/; modelled from the
spec and the repository's tests): when the compiled filter exceeds any
backend capability limit — a field repeated inside one AND group, more
distinct fields than the limit, or more leaf/group combinations than the
limit — no server-side filter is attached to any of the
create/update/delete subscriptions, the predicate is instead evaluated
clientside, and the logged warning names the exceeded limit together with
the count found versus the limit. -/
theorem filter_limit_clientside_fallback (f : FilterNode) (mf mc : Nat) :
    (repeatedAndGroupFields f ≠ [] ∨ mf < distinctFieldCount f ∨ mc < combos f) →
      (buildSubscriptions f mf mc).onCreateFilter = none ∧
      (buildSubscriptions f mf mc).onUpdateFilter = none ∧
      (buildSubscriptions f mf mc).onDeleteFilter = none ∧
      (buildSubscriptions f mf mc).clientsideFiltering = true ∧
      ∃ e, (buildSubscriptions f mf mc).warning = some e ∧
        (e = FilterError.repeatedFieldsInAndGroup (repeatedAndGroupFields f).dedup ∨
          e = FilterError.fieldLimitExceeded (distinctFieldCount f) mf ∨
          e = FilterError.combinationLimitExceeded (combos f) mc) := by
  intro hcond
  obtain ⟨e, he, hwhich⟩ : ∃ e, checkFilter f mf mc = some e ∧
      (e = FilterError.repeatedFieldsInAndGroup (repeatedAndGroupFields f).dedup ∨
        e = FilterError.fieldLimitExceeded (distinctFieldCount f) mf ∨
        e = FilterError.combinationLimitExceeded (combos f) mc) := by
    by_cases h1 : repeatedAndGroupFields f = []
    · by_cases h2 : mf < distinctFieldCount f
      · refine ⟨FilterError.fieldLimitExceeded (distinctFieldCount f) mf, ?_,
          Or.inr (Or.inl rfl)⟩
        simp [checkFilter, h1, h2]
      · by_cases h3 : mc < combos f
        · refine ⟨FilterError.combinationLimitExceeded (combos f) mc, ?_,
            Or.inr (Or.inr rfl)⟩
          simp [checkFilter, h1, h2, h3]
        · rcases hcond with h | h | h
          · exact absurd h1 h
          · exact absurd h h2
          · exact absurd h h3
    · refine ⟨FilterError.repeatedFieldsInAndGroup (repeatedAndGroupFields f).dedup,
        ?_, Or.inl rfl⟩
      simp [checkFilter, h1]
  refine ⟨?_, ?_, ?_, ?_, e, ?_, hwhich⟩ <;> simp [buildSubscriptions, he]

/-- The six-field AND filter from the repository's subscription-filtering
test, checked against the service limits of 5 distinct fields and 10
combinations. -/
def sixFieldFilter : FilterNode :=
  FilterNode.andGroup
    (FilterForest.cons (FilterNode.leaf "id" "eq" "123")
      (FilterForest.cons (FilterNode.leaf "field1" "beginsWith" "a")
        (FilterForest.cons (FilterNode.leaf "optionalField1" "gt" "b")
          (FilterForest.cons (FilterNode.leaf "emails" "contains" "bob@aol.com")
            (FilterForest.cons (FilterNode.leaf "ips" "contains" "10.0.0.1")
              (FilterForest.cons (FilterNode.leaf "createdAt" "gt" "1/1/2023")
                FilterForest.nil))))))

/-- Concrete instantiation: six distinct fields against a limit of five
yield no subscription filters and the clientside fallback. -/
theorem filter_limit_clientside_fallback_witness :
    (buildSubscriptions sixFieldFilter 5 10).onCreateFilter = none ∧
    (buildSubscriptions sixFieldFilter 5 10).clientsideFiltering = true ∧
    distinctFieldCount sixFieldFilter = 6 :=
  ⟨(filter_limit_clientside_fallback sixFieldFilter 5 10
      (Or.inr (Or.inl (by decide)))).1,
    (filter_limit_clientside_fallback sixFieldFilter 5 10
      (Or.inr (Or.inl (by decide)))).2.2.2.1,
    by decide⟩

end AmplifySync
